import Mathlib

set_option autoImplicit false

/-!
Verification development for the Plannotator data layer: the line-level
diff engine (`computePlanDiff`), the version-history store
(`saveToHistory`, `getPlanVersion`), the slug derivation
(`generateSlug`, `sanitizeTag`) and the share codec. TypeScript sources
are embedded as executable Lean definitions; machine strings are Lean
`String`s (lists of characters), fallible filesystem reads are `Option`
valued, and the current date is an explicit parameter.
-/

namespace Plannotator

/-! ## Diff engine (plan-diff module)

The diff engine splits both texts into lines, computes a line-level edit
script with the external `diff` library's `diffLines`, then groups the
script into render blocks and statistics. `diffLines` itself is not part
of the repository, so it is modelled from the spec; the grouping loop and
`countLines` are embedded from the source. -/

/-- Model of the JavaScript `text.split("\n")` at the character level:
pieces between newline characters, empty pieces preserved, one (possibly
empty) piece even for the empty string. -/
def splitNlChars : List Char → List (List Char)
  | [] => [[]]
  | c :: rest =>
    match splitNlChars rest with
    | [] => [[c]]
    | p :: ps => if c = '\n' then [] :: p :: ps else (c :: p) :: ps

/-- Rejoining the pieces of a newline split: the inverse direction of
`splitNlChars`, interleaving one newline between adjacent pieces. -/
def joinNl : List (List Char) → List Char
  | [] => []
  | [p] => p
  | p :: rest => p ++ '\n' :: joinNl rest

/-- countLines from the diff engine: number of lines in a string, where the
empty trailing piece produced by a final newline is not counted. -/
def countLines (text : String) : Nat :=
  let lines := splitNlChars text.data
  if 0 < lines.length ∧ lines.getLast? = some [] then lines.length - 1
  else lines.length

/-- Modelled from the spec: the line tokenizer of the external `diff`
library (missing from the repository sources). Every line keeps its
trailing newline; the artifact empty piece after a final newline is
dropped, so a text not ending in a newline contributes a final token
without one. -/
def lineTokens : List (List Char) → List (List Char)
  | [] => []
  | [p] => if p = [] then [] else [p]
  | p :: rest => (p ++ ['\n']) :: lineTokens rest

/-- Tokenize a text into its lines (as strings), newlines kept. -/
def tokenizeLines (text : String) : List String :=
  (lineTokens (splitNlChars text.data)).map String.mk

/-- One element of the edit script handed to the grouping loop: a run of
lines flagged as added, removed, or (both flags false) common. This is the
`Change` shape of the external `diff` library. -/
structure Change where
  value : String
  added : Bool
  removed : Bool
deriving DecidableEq, Repr

/-- Modelled from the spec: length of a longest common subsequence of two
token lists, the quantity an LCS-based diff preserves. The first argument
is recursion fuel (the summed length of the lists decreases at every call,
so `lcsLen` below always supplies enough). -/
def lcsLenF : Nat → List String → List String → Nat
  | 0, _, _ => 0
  | _ + 1, [], _ => 0
  | _ + 1, _ :: _, [] => 0
  | fuel + 1, a :: as, b :: bs =>
    if a = b then lcsLenF fuel as bs + 1
    else max (lcsLenF fuel as (b :: bs)) (lcsLenF fuel (a :: as) bs)

/-- Length of a longest common subsequence of two token lists. -/
def lcsLen (l r : List String) : Nat := lcsLenF (l.length + r.length) l r

/-- One token-level edit: keep a common token, remove an old token, or
insert a new token. -/
inductive Edit where
  | keep (t : String)
  | remove (t : String)
  | insert (t : String)
deriving DecidableEq, Repr

/-- Modelled from the spec: an LCS-based token-level edit script (line
insertions and removals preserving the order of common lines), with
removals emitted before insertions inside a replacement hunk, as the
external library does. The first argument is recursion fuel; the fuel-out
fallback still emits a valid script, and `diffTokens` below always
supplies enough fuel to avoid it. -/
def diffTokensF : Nat → List String → List String → List Edit
  | 0, as, bs => as.map Edit.remove ++ bs.map Edit.insert
  | _ + 1, [], bs => bs.map Edit.insert
  | fuel + 1, a :: as, [] => Edit.remove a :: diffTokensF fuel as []
  | fuel + 1, a :: as, b :: bs =>
    if a = b then Edit.keep a :: diffTokensF fuel as bs
    else if lcsLen (a :: as) bs ≤ lcsLen as (b :: bs) then
      Edit.remove a :: diffTokensF fuel as (b :: bs)
    else
      Edit.insert b :: diffTokensF fuel (a :: as) bs

/-- Token-level edit script between two token lists. -/
def diffTokens (l r : List String) : List Edit :=
  diffTokensF (l.length + r.length) l r

/-- Merge a new run onto the front of a change list, concatenating with the
first change when both carry the same flags (the library merges maximal
same-kind runs into one change). -/
def pushChange (v : String) (a r : Bool) : List Change → List Change
  | [] => [⟨v, a, r⟩]
  | c :: cs =>
    if c.added = a ∧ c.removed = r then ⟨v ++ c.value, a, r⟩ :: cs
    else ⟨v, a, r⟩ :: c :: cs

/-- Group a token-level edit script into maximal same-kind changes whose
values are the concatenated tokens. -/
def groupEdits : List Edit → List Change
  | [] => []
  | Edit.keep t :: rest => pushChange t false false (groupEdits rest)
  | Edit.remove t :: rest => pushChange t false true (groupEdits rest)
  | Edit.insert t :: rest => pushChange t true false (groupEdits rest)

/-- Modelled from the spec: the external library's `diffLines`. Identical
inputs short-circuit to a single common change carrying the whole text;
otherwise the texts are tokenized into lines and an LCS edit script is
computed and grouped into maximal runs. -/
def diffLines (oldText newText : String) : List Change :=
  if oldText = newText then [⟨newText, false, false⟩]
  else groupEdits (diffTokens (tokenizeLines oldText) (tokenizeLines newText))

/-- Kind of a rendered diff block (the `type` field of `PlanDiffBlock`). -/
inductive DiffType where
  | added
  | removed
  | modified
  | unchanged
deriving DecidableEq, Repr

/-- One unit of a computed diff, from the `PlanDiffBlock` interface:
`content` is the new text for added and modified blocks, the old text for
removed blocks, and the common text for unchanged ones; `oldContent` is
populated for modified blocks only; `lines` caches the content line count. -/
structure PlanDiffBlock where
  type : DiffType
  content : String
  oldContent : Option String
  lines : Nat
deriving DecidableEq, Repr

/-- Aggregate statistics of a computed diff (the `PlanDiffStats` interface). -/
structure PlanDiffStats where
  additions : Nat
  deletions : Nat
  modifications : Nat
deriving DecidableEq, Repr

/-- Block built for a change that was not merged into a modified pair; the
branch order (added, then removed, then unchanged) mirrors the source loop. -/
def mkBlock (c : Change) : PlanDiffBlock :=
  if c.added then ⟨DiffType.added, c.value, none, countLines c.value⟩
  else if c.removed then ⟨DiffType.removed, c.value, none, countLines c.value⟩
  else ⟨DiffType.unchanged, c.value, none, countLines c.value⟩

/-- The grouping loop of `computePlanDiff`, block output: a removed change
immediately followed by an added change becomes one modified block and both
changes are consumed; any other change becomes its own block. -/
def buildBlocks : List Change → List PlanDiffBlock
  | [] => []
  | [c] => [mkBlock c]
  | c :: n :: rest =>
    if c.removed && n.added then
      ⟨DiffType.modified, n.value, some c.value, countLines n.value⟩ :: buildBlocks rest
    else
      mkBlock c :: buildBlocks (n :: rest)

/-- Statistics contributed by a change handled as a single block. -/
def singleStats (c : Change) : PlanDiffStats :=
  if c.added then ⟨countLines c.value, 0, 0⟩
  else if c.removed then ⟨0, countLines c.value, 0⟩
  else ⟨0, 0, 0⟩

/-- Pointwise sum of diff statistics. -/
def addStats (a b : PlanDiffStats) : PlanDiffStats :=
  ⟨a.additions + b.additions, a.deletions + b.deletions,
    a.modifications + b.modifications⟩

/-- The grouping loop of `computePlanDiff`, statistics output, accumulated
along the same branch structure as `buildBlocks`. -/
def buildStats : List Change → PlanDiffStats
  | [] => ⟨0, 0, 0⟩
  | [c] => singleStats c
  | c :: n :: rest =>
    if c.removed && n.added then
      addStats ⟨countLines n.value, countLines c.value, 1⟩ (buildStats rest)
    else
      addStats (singleStats c) (buildStats (n :: rest))

/-- computePlanDiff from the diff engine: the edit script of the two texts,
grouped into render blocks and statistics. -/
def computePlanDiff (oldText newText : String) :
    List PlanDiffBlock × PlanDiffStats :=
  let changes := diffLines oldText newText
  (buildBlocks changes, buildStats changes)

/-! ### String append helpers -/

theorem strAppend_empty (s : String) : s ++ "" = s := by
  cases s with
  | mk d => show String.mk (d ++ []) = String.mk d; rw [List.append_nil]

theorem strEmpty_append (s : String) : "" ++ s = s := rfl

theorem strAppend_assoc (a b c : String) : a ++ b ++ c = a ++ (b ++ c) := by
  cases a with
  | mk da =>
    cases b with
    | mk db =>
      cases c with
      | mk dc =>
        show String.mk (da ++ db ++ dc) = String.mk (da ++ (db ++ dc))
        rw [List.append_assoc]

/-! ### Reconstruction lemmas: splitting and rejoining lines -/

theorem splitNlChars_ne_nil (l : List Char) : splitNlChars l ≠ [] := by
  cases l with
  | nil => simp [splitNlChars]
  | cons c rest =>
    simp only [splitNlChars]
    cases h : splitNlChars rest with
    | nil => simp
    | cons p ps =>
      show ¬(if c = '\n' then [] :: p :: ps else (c :: p) :: ps) = []
      by_cases hc : c = '\n' <;> simp [hc]

theorem joinNl_splitNlChars (l : List Char) : joinNl (splitNlChars l) = l := by
  induction l with
  | nil => rfl
  | cons c rest ih =>
    simp only [splitNlChars]
    cases h : splitNlChars rest with
    | nil => exact absurd h (splitNlChars_ne_nil rest)
    | cons p ps =>
      rw [h] at ih
      show joinNl (if c = '\n' then [] :: p :: ps else (c :: p) :: ps) = c :: rest
      by_cases hc : c = '\n'
      · subst hc
        rw [if_pos rfl]
        show '\n' :: joinNl (p :: ps) = '\n' :: rest
        rw [ih]
      · rw [if_neg hc]
        cases ps with
        | nil =>
          show c :: p = c :: rest
          simp only [joinNl] at ih
          rw [ih]
        | cons q qs =>
          show (c :: p) ++ '\n' :: joinNl (q :: qs) = c :: rest
          simp only [joinNl] at ih
          rw [List.cons_append, ih]

theorem lineTokens_flatten (parts : List (List Char)) :
    (lineTokens parts).flatten = joinNl parts := by
  induction parts with
  | nil => rfl
  | cons p rest ih =>
    cases rest with
    | nil => by_cases hp : p = [] <;> simp [lineTokens, joinNl, hp]
    | cons q qs =>
      simp only [lineTokens, joinNl, List.flatten_cons] at ih ⊢
      rw [ih, List.append_assoc, List.singleton_append]

/-- Concatenation of a list of strings in order. -/
def concatStrs : List String → String
  | [] => ""
  | s :: rest => s ++ concatStrs rest

theorem concatStrs_map_mk (l : List (List Char)) :
    concatStrs (l.map String.mk) = String.mk l.flatten := by
  induction l with
  | nil => rfl
  | cons p rest ih =>
    show String.mk p ++ concatStrs (rest.map String.mk) = _
    rw [ih]
    rfl

theorem concatStrs_tokenizeLines (s : String) : concatStrs (tokenizeLines s) = s := by
  unfold tokenizeLines
  rw [concatStrs_map_mk, lineTokens_flatten, joinNl_splitNlChars]

/-! ### The edit script is a valid script for its two inputs -/

/-- Old-side token of an edit: the token read from the old text, if any. -/
def editOldToken : Edit → Option String
  | Edit.keep t => some t
  | Edit.remove t => some t
  | Edit.insert _ => none

/-- New-side token of an edit: the token written to the new text, if any. -/
def editNewToken : Edit → Option String
  | Edit.keep t => some t
  | Edit.insert t => some t
  | Edit.remove _ => none

theorem filterMap_oldToken_remove (l : List String) :
    (l.map Edit.remove).filterMap editOldToken = l := by
  induction l with
  | nil => rfl
  | cons a as ih => simp [editOldToken, ih]

theorem filterMap_oldToken_insert (l : List String) :
    (l.map Edit.insert).filterMap editOldToken = [] := by
  induction l with
  | nil => rfl
  | cons a as ih => simp [editOldToken, ih]

theorem filterMap_newToken_remove (l : List String) :
    (l.map Edit.remove).filterMap editNewToken = [] := by
  induction l with
  | nil => rfl
  | cons a as ih => simp [editNewToken, ih]

theorem filterMap_newToken_insert (l : List String) :
    (l.map Edit.insert).filterMap editNewToken = l := by
  induction l with
  | nil => rfl
  | cons a as ih => simp [editNewToken, ih]

theorem diffTokensF_oldTokens (fuel : Nat) :
    ∀ l r : List String, (diffTokensF fuel l r).filterMap editOldToken = l := by
  induction fuel with
  | zero =>
    intro l r
    rw [diffTokensF, List.filterMap_append, filterMap_oldToken_remove,
      filterMap_oldToken_insert, List.append_nil]
  | succ fuel ih =>
    intro l r
    cases l with
    | nil =>
      show (r.map Edit.insert).filterMap editOldToken = []
      exact filterMap_oldToken_insert r
    | cons a as =>
      cases r with
      | nil => simp [diffTokensF, editOldToken, ih]
      | cons b bs =>
        simp only [diffTokensF]
        split
        · simp [editOldToken, ih]
        · split <;> simp [editOldToken, ih]

theorem diffTokensF_newTokens (fuel : Nat) :
    ∀ l r : List String, (diffTokensF fuel l r).filterMap editNewToken = r := by
  induction fuel with
  | zero =>
    intro l r
    rw [diffTokensF, List.filterMap_append, filterMap_newToken_remove,
      filterMap_newToken_insert, List.nil_append]
  | succ fuel ih =>
    intro l r
    cases l with
    | nil =>
      show (r.map Edit.insert).filterMap editNewToken = r
      exact filterMap_newToken_insert r
    | cons a as =>
      cases r with
      | nil => simp [diffTokensF, editNewToken, ih]
      | cons b bs =>
        simp only [diffTokensF]
        split
        · rename_i hab
          subst hab
          simp [editNewToken, ih]
        · split <;> simp [editNewToken, ih]

/-! ### Change lists reconstruct both texts -/

/-- Old-text contribution of a change list: values of the changes that are
not additions, in order. -/
def changeOldSide : List Change → String
  | [] => ""
  | c :: cs => (if c.added then "" else c.value) ++ changeOldSide cs

/-- New-text contribution of a change list: values of the changes that are
not removals, in order. -/
def changeNewSide : List Change → String
  | [] => ""
  | c :: cs => (if c.removed then "" else c.value) ++ changeNewSide cs

theorem changeOldSide_pushChange (v : String) (a r : Bool) (cs : List Change) :
    changeOldSide (pushChange v a r cs) = (if a then "" else v) ++ changeOldSide cs := by
  cases cs with
  | nil => simp [pushChange, changeOldSide, strAppend_empty]
  | cons c cs =>
    simp only [pushChange]
    split
    · rename_i h
      obtain ⟨h1, _⟩ := h
      simp only [changeOldSide, ← h1]
      cases hc : c.added <;> simp [strAppend_assoc, strEmpty_append]
    · simp [changeOldSide]

theorem changeNewSide_pushChange (v : String) (a r : Bool) (cs : List Change) :
    changeNewSide (pushChange v a r cs) = (if r then "" else v) ++ changeNewSide cs := by
  cases cs with
  | nil => simp [pushChange, changeNewSide, strAppend_empty]
  | cons c cs =>
    simp only [pushChange]
    split
    · rename_i h
      obtain ⟨_, h2⟩ := h
      simp only [changeNewSide, ← h2]
      cases hc : c.removed <;> simp [strAppend_assoc, strEmpty_append]
    · simp [changeNewSide]

theorem changeOldSide_groupEdits (es : List Edit) :
    changeOldSide (groupEdits es) = concatStrs (es.filterMap editOldToken) := by
  induction es with
  | nil => rfl
  | cons e rest ih =>
    cases e <;>
      simp [groupEdits, changeOldSide_pushChange, editOldToken, concatStrs, ih,
        List.filterMap_cons, strEmpty_append]

theorem changeNewSide_groupEdits (es : List Edit) :
    changeNewSide (groupEdits es) = concatStrs (es.filterMap editNewToken) := by
  induction es with
  | nil => rfl
  | cons e rest ih =>
    cases e <;>
      simp [groupEdits, changeNewSide_pushChange, editNewToken, concatStrs, ih,
        List.filterMap_cons, strEmpty_append]

/-! ### Well-formed changes: a change is never both added and removed -/

/-- A change carries at most one of the added and removed flags; every
change list produced by the modelled `diffLines` satisfies this. -/
def changeWF (c : Change) : Prop := c.added = false ∨ c.removed = false

instance changeWF_dec (c : Change) : Decidable (changeWF c) :=
  inferInstanceAs (Decidable (_ ∨ _))

theorem pushChange_mem (v : String) (a r : Bool) (cs : List Change) :
    ∀ c ∈ pushChange v a r cs, (c.added = a ∧ c.removed = r) ∨ c ∈ cs := by
  cases cs with
  | nil =>
    intro c hc
    simp [pushChange] at hc
    subst hc
    exact Or.inl ⟨rfl, rfl⟩
  | cons c' cs =>
    intro c hc
    simp only [pushChange] at hc
    split at hc
    · rcases List.mem_cons.mp hc with h | h
      · subst h; exact Or.inl ⟨rfl, rfl⟩
      · exact Or.inr (List.mem_cons_of_mem _ h)
    · rcases List.mem_cons.mp hc with h | h
      · subst h; exact Or.inl ⟨rfl, rfl⟩
      · exact Or.inr h

theorem groupEdits_WF (es : List Edit) : ∀ c ∈ groupEdits es, changeWF c := by
  induction es with
  | nil => simp [groupEdits]
  | cons e rest ih =>
    cases e <;>
      · intro c hc
        rcases pushChange_mem _ _ _ _ c hc with ⟨h1, h2⟩ | h
        · first
            | exact Or.inl h1
            | exact Or.inr h2
        · exact ih c h

theorem diffLines_WF (oldText newText : String) :
    ∀ c ∈ diffLines oldText newText, changeWF c := by
  unfold diffLines
  split
  · intro c hc
    simp at hc
    subst hc
    exact Or.inl rfl
  · exact groupEdits_WF _

/-! ### Diff blocks reconstruct both texts -/

/-- Old-text contribution of one diff block. -/
def blockOldPart (b : PlanDiffBlock) : String :=
  match b.type with
  | DiffType.unchanged => b.content
  | DiffType.removed => b.content
  | DiffType.modified => b.oldContent.getD ""
  | DiffType.added => ""

/-- New-text contribution of one diff block. -/
def blockNewPart (b : PlanDiffBlock) : String :=
  match b.type with
  | DiffType.unchanged => b.content
  | DiffType.added => b.content
  | DiffType.modified => b.content
  | DiffType.removed => ""

/-- Old-text reconstruction from a block list: unchanged and removed
contents together with the old contents of modified blocks, in order. -/
def blockOldSide : List PlanDiffBlock → String
  | [] => ""
  | b :: bs => blockOldPart b ++ blockOldSide bs

/-- New-text reconstruction from a block list: unchanged, added and
modified contents, in order. -/
def blockNewSide : List PlanDiffBlock → String
  | [] => ""
  | b :: bs => blockNewPart b ++ blockNewSide bs

theorem blockOldPart_mkBlock (c : Change) :
    blockOldPart (mkBlock c) = if c.added then "" else c.value := by
  unfold mkBlock
  cases ha : c.added <;> cases hr : c.removed <;> simp [blockOldPart, ha, hr]

theorem blockNewPart_mkBlock (c : Change) (wf : changeWF c) :
    blockNewPart (mkBlock c) = if c.removed then "" else c.value := by
  unfold mkBlock
  cases ha : c.added <;> cases hr : c.removed <;>
    simp_all [blockNewPart, changeWF]

theorem blockOldSide_buildBlocks (cs : List Change) (wf : ∀ c ∈ cs, changeWF c) :
    blockOldSide (buildBlocks cs) = changeOldSide cs := by
  induction cs using buildBlocks.induct with
  | case1 => rfl
  | case2 c =>
    simp [buildBlocks, blockOldSide, changeOldSide, blockOldPart_mkBlock,
      strAppend_empty]
  | case3 c n rest h ih =>
    have hc : changeWF c := wf c (by simp)
    have hr : c.removed = true := (Bool.and_eq_true _ _).mp h |>.1
    have hn : n.added = true := (Bool.and_eq_true _ _).mp h |>.2
    have hca : c.added = false := by
      rcases hc with h' | h'
      · exact h'
      · rw [h'] at hr; cases hr
    simp only [buildBlocks]
    rw [if_pos h]
    simp only [blockOldSide, changeOldSide]
    rw [ih (fun x hx => wf x (by simp [hx]))]
    simp [blockOldPart, hca, hn, strEmpty_append]
  | case4 c n rest h ih =>
    simp only [buildBlocks]
    rw [if_neg h]
    simp only [blockOldSide, blockOldPart_mkBlock]
    rw [ih (fun x hx => wf x (by simp at hx ⊢; tauto))]
    rfl

theorem blockNewSide_buildBlocks (cs : List Change) (wf : ∀ c ∈ cs, changeWF c) :
    blockNewSide (buildBlocks cs) = changeNewSide cs := by
  induction cs using buildBlocks.induct with
  | case1 => rfl
  | case2 c =>
    simp [buildBlocks, blockNewSide, changeNewSide,
      blockNewPart_mkBlock c (wf c (by simp)), strAppend_empty]
  | case3 c n rest h ih =>
    have hn2 : changeWF n := wf n (by simp)
    have hr : c.removed = true := (Bool.and_eq_true _ _).mp h |>.1
    have hn : n.added = true := (Bool.and_eq_true _ _).mp h |>.2
    have hnr : n.removed = false := by
      rcases hn2 with h' | h'
      · rw [h'] at hn; cases hn
      · exact h'
    simp only [buildBlocks]
    rw [if_pos h]
    simp only [blockNewSide, changeNewSide]
    rw [ih (fun x hx => wf x (by simp [hx]))]
    simp [blockNewPart, hr, hnr, strEmpty_append]
  | case4 c n rest h ih =>
    simp only [buildBlocks]
    rw [if_neg h]
    simp only [blockNewSide, blockNewPart_mkBlock c (wf c (by simp))]
    rw [ih (fun x hx => wf x (by simp at hx ⊢; tauto))]
    rfl

/-- C10: for every pair of texts, the blocks returned by computePlanDiff
are lossless — concatenating the contents of the unchanged, added and
modified blocks in order yields the new text, and concatenating the
contents of the unchanged and removed blocks together with the old
contents of the modified blocks yields the old text. -/
theorem computePlanDiff_lossless (oldText newText : String) :
    blockOldSide (computePlanDiff oldText newText).1 = oldText ∧
    blockNewSide (computePlanDiff oldText newText).1 = newText := by
  unfold computePlanDiff
  constructor
  · rw [blockOldSide_buildBlocks _ (diffLines_WF oldText newText)]
    unfold diffLines
    split
    · rename_i h
      simp [changeOldSide, h, strAppend_empty]
    · rw [changeOldSide_groupEdits]
      unfold diffTokens
      rw [diffTokensF_oldTokens]
      exact concatStrs_tokenizeLines oldText
  · rw [blockNewSide_buildBlocks _ (diffLines_WF oldText newText)]
    unfold diffLines
    split
    · simp [changeNewSide, strAppend_empty]
    · rw [changeNewSide_groupEdits]
      unfold diffTokens
      rw [diffTokensF_newTokens]
      exact concatStrs_tokenizeLines newText

/-! ### Statistics agree with the emitted blocks -/

/-- Sum of the content line counts of the added and modified blocks. -/
def blocksAdditions : List PlanDiffBlock → Nat
  | [] => 0
  | b :: bs =>
    (if b.type = DiffType.added ∨ b.type = DiffType.modified then countLines b.content
     else 0) + blocksAdditions bs

/-- Sum of the line counts of the removed contents and of the old contents
of the modified blocks. -/
def blocksDeletions : List PlanDiffBlock → Nat
  | [] => 0
  | b :: bs =>
    ((if b.type = DiffType.removed then countLines b.content else 0)
      + (if b.type = DiffType.modified then countLines (b.oldContent.getD "") else 0))
      + blocksDeletions bs

/-- Number of modified blocks. -/
def blocksModifications : List PlanDiffBlock → Nat
  | [] => 0
  | b :: bs => (if b.type = DiffType.modified then 1 else 0) + blocksModifications bs

theorem buildStats_buildBlocks (cs : List Change) :
    (buildStats cs).additions = blocksAdditions (buildBlocks cs) ∧
    (buildStats cs).deletions = blocksDeletions (buildBlocks cs) ∧
    (buildStats cs).modifications = blocksModifications (buildBlocks cs) := by
  induction cs using buildStats.induct with
  | case1 =>
    simp [buildStats, buildBlocks, blocksAdditions, blocksDeletions,
      blocksModifications]
  | case2 c =>
    cases ha : c.added <;> cases hr : c.removed <;>
      simp [buildStats, buildBlocks, singleStats, mkBlock, ha, hr,
        blocksAdditions, blocksDeletions, blocksModifications]
  | case3 c n rest h ih =>
    obtain ⟨ih1, ih2, ih3⟩ := ih
    simp only [buildStats, buildBlocks]
    rw [if_pos h, if_pos h]
    simp [addStats, blocksAdditions, blocksDeletions, blocksModifications,
      ih1, ih2, ih3]
  | case4 c n rest h ih =>
    obtain ⟨ih1, ih2, ih3⟩ := ih
    simp only [buildStats, buildBlocks]
    rw [if_neg h, if_neg h]
    cases ha : c.added <;> cases hr : c.removed <;>
      simp [addStats, singleStats, mkBlock, ha, hr, blocksAdditions,
        blocksDeletions, blocksModifications, ih1, ih2, ih3]

theorem mkBlock_lines (c : Change) :
    (mkBlock c).lines = countLines (mkBlock c).content := by
  cases ha : c.added <;> cases hr : c.removed <;> simp [mkBlock, ha, hr]

theorem buildBlocks_lines (cs : List Change) :
    ∀ b ∈ buildBlocks cs, b.lines = countLines b.content := by
  induction cs using buildBlocks.induct with
  | case1 => simp [buildBlocks]
  | case2 c =>
    intro b hb
    simp [buildBlocks] at hb
    subst hb
    exact mkBlock_lines c
  | case3 c n rest h ih =>
    intro b hb
    simp only [buildBlocks] at hb
    rw [if_pos h] at hb
    rcases List.mem_cons.mp hb with hb | hb
    · subst hb; rfl
    · exact ih b hb
  | case4 c n rest h ih =>
    intro b hb
    simp only [buildBlocks] at hb
    rw [if_neg h] at hb
    rcases List.mem_cons.mp hb with hb | hb
    · subst hb; exact mkBlock_lines c
    · exact ih b hb

/-- C5: for every pair of texts, the statistics of computePlanDiff count
lines — additions is the summed line count of added content (including
the new content of modified blocks), deletions the summed line count of
removed content (including the old content of modified blocks),
modifications the number of modified blocks — and each block's lines
field is the line count of its content. -/
theorem computePlanDiff_stats (oldText newText : String) :
    (computePlanDiff oldText newText).2.additions
        = blocksAdditions (computePlanDiff oldText newText).1 ∧
    (computePlanDiff oldText newText).2.deletions
        = blocksDeletions (computePlanDiff oldText newText).1 ∧
    (computePlanDiff oldText newText).2.modifications
        = blocksModifications (computePlanDiff oldText newText).1 ∧
    ∀ b ∈ (computePlanDiff oldText newText).1, b.lines = countLines b.content := by
  obtain ⟨h1, h2, h3⟩ := buildStats_buildBlocks (diffLines oldText newText)
  exact ⟨h1, h2, h3, buildBlocks_lines (diffLines oldText newText)⟩

/-- C3: diffing a text against itself yields exactly one block, of type
unchanged and carrying the whole text, with all-zero statistics. -/
theorem computePlanDiff_self (T : String) :
    computePlanDiff T T
      = ([⟨DiffType.unchanged, T, none, countLines T⟩], ⟨0, 0, 0⟩) := by
  unfold computePlanDiff diffLines
  rw [if_pos rfl]
  simp [buildBlocks, buildStats, mkBlock, singleStats]

/-! ### The modified-block pairing of the grouping loop -/

theorem getLast?_tail_imp (x : Change) (pre : List Change)
    (h : ∀ p, (x :: pre).getLast? = some p → p.removed = false) :
    ∀ p, pre.getLast? = some p → p.removed = false := by
  intro p hp
  apply h
  cases pre with
  | nil => cases hp
  | cons y ys => rw [List.getLast?_cons_cons]; exact hp

/-- Any change that is not an addition — and any change after a
non-removed end of the preceding context — is reached by the grouping loop
as the head of the remaining list, so the blocks after some point are
exactly the blocks of the remaining changes. -/
theorem buildBlocks_reach : ∀ (pre : List Change) (c : Change) (suf : List Change),
    (c.added = false ∨ ∀ p, pre.getLast? = some p → p.removed = false) →
    ∃ bpre, buildBlocks (pre ++ c :: suf) = bpre ++ buildBlocks (c :: suf)
  | [], _, _, _ => ⟨[], rfl⟩
  | [x], c, suf, h => by
    have hx : ¬(x.removed && c.added) = true := by
      rcases h with h | h
      · simp [h]
      · simp [h x rfl]
    refine ⟨[mkBlock x], ?_⟩
    show buildBlocks (x :: c :: suf) = _
    simp only [buildBlocks]
    rw [if_neg hx]
    rfl
  | x :: y :: pre', c, suf, h => by
    have h' : c.added = false ∨ ∀ p, (y :: pre').getLast? = some p → p.removed = false := by
      rcases h with h | h
      · exact Or.inl h
      · exact Or.inr (getLast?_tail_imp x (y :: pre') h)
    by_cases hxy : (x.removed && y.added) = true
    · have h'' : c.added = false ∨ ∀ p, pre'.getLast? = some p → p.removed = false := by
        rcases h' with h' | h'
        · exact Or.inl h'
        · exact Or.inr (getLast?_tail_imp y pre' h')
      obtain ⟨bpre, hb⟩ := buildBlocks_reach pre' c suf h''
      refine ⟨⟨DiffType.modified, y.value, some x.value, countLines y.value⟩ :: bpre, ?_⟩
      show buildBlocks (x :: y :: (pre' ++ c :: suf)) = _
      simp only [buildBlocks]
      rw [if_pos hxy, hb]
      rfl
    · obtain ⟨bpre, hb⟩ := buildBlocks_reach (y :: pre') c suf h'
      refine ⟨mkBlock x :: bpre, ?_⟩
      show buildBlocks (x :: y :: (pre' ++ c :: suf)) = _
      simp only [buildBlocks]
      rw [if_neg hxy]
      have : y :: (pre' ++ c :: suf) = (y :: pre') ++ c :: suf := rfl
      rw [this, hb]
      rfl

theorem buildBlocks_paired (pre : List Change) (r a : Change) (suf : List Change)
    (wf : ∀ x ∈ pre ++ r :: a :: suf, changeWF x)
    (hr : r.removed = true) (ha : a.added = true) :
    ∃ bpre, buildBlocks (pre ++ r :: a :: suf)
      = bpre ++ ⟨DiffType.modified, a.value, some r.value, countLines a.value⟩
          :: buildBlocks suf := by
  have hra : r.added = false := by
    rcases wf r (by simp) with h | h
    · exact h
    · rw [h] at hr; cases hr
  obtain ⟨bpre, hb⟩ := buildBlocks_reach pre r (a :: suf) (Or.inl hra)
  refine ⟨bpre, ?_⟩
  rw [hb]
  simp only [buildBlocks]
  rw [if_pos (by simp [hr, ha])]

theorem buildBlocks_lone_removed (pre : List Change) (r : Change) (suf : List Change)
    (wf : ∀ x ∈ pre ++ r :: suf, changeWF x)
    (hr : r.removed = true)
    (hnext : ∀ s, suf.head? = some s → s.added = false) :
    ∃ bpre, buildBlocks (pre ++ r :: suf)
      = bpre ++ ⟨DiffType.removed, r.value, none, countLines r.value⟩
          :: buildBlocks suf := by
  have hra : r.added = false := by
    rcases wf r (by simp) with h | h
    · exact h
    · rw [h] at hr; cases hr
  obtain ⟨bpre, hb⟩ := buildBlocks_reach pre r suf (Or.inl hra)
  refine ⟨bpre, ?_⟩
  rw [hb]
  cases suf with
  | nil => simp [buildBlocks, mkBlock, hra, hr]
  | cons s suf' =>
    have hs : s.added = false := hnext s rfl
    simp only [buildBlocks]
    rw [if_neg (by simp [hs])]
    simp [mkBlock, hra, hr]

theorem buildBlocks_lone_added (pre : List Change) (a : Change) (suf : List Change)
    (wf : ∀ x ∈ pre ++ a :: suf, changeWF x)
    (ha : a.added = true)
    (hlast : ∀ p, pre.getLast? = some p → p.removed = false) :
    ∃ bpre, buildBlocks (pre ++ a :: suf)
      = bpre ++ ⟨DiffType.added, a.value, none, countLines a.value⟩
          :: buildBlocks suf := by
  have har : a.removed = false := by
    rcases wf a (by simp) with h | h
    · rw [h] at ha; cases ha
    · exact h
  obtain ⟨bpre, hb⟩ := buildBlocks_reach pre a suf (Or.inr hlast)
  refine ⟨bpre, ?_⟩
  rw [hb]
  cases suf with
  | nil => simp [buildBlocks, mkBlock, ha]
  | cons s suf' =>
    simp only [buildBlocks]
    rw [if_neg (by simp [har])]
    simp [mkBlock, ha]

theorem mkBlock_type_added (c : Change) :
    (mkBlock c).type = DiffType.added ↔ c.added = true := by
  cases ha : c.added <;> cases hr : c.removed <;> simp [mkBlock, ha, hr]

theorem mkBlock_type_removed (c : Change) :
    (mkBlock c).type = DiffType.removed ↔ (c.added = false ∧ c.removed = true) := by
  cases ha : c.added <;> cases hr : c.removed <;> simp [mkBlock, ha, hr]

theorem buildBlocks_head_cases (n : Change) (rest : List Change) :
    ∀ b ∈ (buildBlocks (n :: rest)).head?, b = mkBlock n ∨ b.type = DiffType.modified := by
  cases rest with
  | nil => simp [buildBlocks]
  | cons m rest' =>
    simp only [buildBlocks]
    split
    · intro b hb
      simp at hb
      subst hb
      exact Or.inr rfl
    · intro b hb
      simp at hb
      subst hb
      exact Or.inl rfl

/-- The grouping loop never emits a removed block directly followed by an
added block: such a pair would have been merged into a modified block. -/
theorem buildBlocks_no_adjacent (cs : List Change) (wf : ∀ x ∈ cs, changeWF x) :
    List.Chain'
      (fun b1 b2 => ¬(b1.type = DiffType.removed ∧ b2.type = DiffType.added))
      (buildBlocks cs) := by
  induction cs using buildBlocks.induct with
  | case1 => simp [buildBlocks]
  | case2 c => simp [buildBlocks]
  | case3 c n rest h ih =>
    simp only [buildBlocks]
    rw [if_pos h]
    rw [List.chain'_cons']
    refine ⟨?_, ih (fun x hx => wf x (by simp [hx]))⟩
    intro b _
    simp
  | case4 c n rest h ih =>
    simp only [buildBlocks]
    rw [if_neg h]
    rw [List.chain'_cons']
    refine ⟨?_, ih (fun x hx => wf x (by simp at hx ⊢; tauto))⟩
    intro b hb
    rintro ⟨hc, hbadd⟩
    obtain ⟨hcadd, hcrem⟩ := (mkBlock_type_removed c).mp hc
    have hn : n.added = false := by
      by_contra hn
      rw [Bool.not_eq_false] at hn
      exact h (by simp [hcrem, hn])
    rcases buildBlocks_head_cases n rest b hb with hbn | hbm
    · subst hbn
      rw [mkBlock_type_added] at hbadd
      rw [hn] at hbadd
      cases hbadd
    · rw [hbm] at hbadd
      cases hbadd

/-- C4: a removed change immediately followed by an added change in the
edit script is emitted as one modified block whose old content is the
removed text and whose content is the added text; removed changes not
followed by an added change and added changes not preceded by a removed
change are emitted as removed and added blocks; the output never contains
a removed block directly followed by an added block; and the concrete
scenario old = "line1\nline2\n", new = "line1\nline2-edited\n" yields an
unchanged block and a modified block with stats one addition, one
deletion, one modification. -/
theorem computePlanDiff_pairing :
    (∀ (pre : List Change) (r a : Change) (suf : List Change),
        (∀ x ∈ pre ++ r :: a :: suf, changeWF x) →
        r.removed = true → a.added = true →
        ∃ bpre, buildBlocks (pre ++ r :: a :: suf)
          = bpre ++ ⟨DiffType.modified, a.value, some r.value, countLines a.value⟩
              :: buildBlocks suf) ∧
    (∀ (pre : List Change) (r : Change) (suf : List Change),
        (∀ x ∈ pre ++ r :: suf, changeWF x) →
        r.removed = true → (∀ s, suf.head? = some s → s.added = false) →
        ∃ bpre, buildBlocks (pre ++ r :: suf)
          = bpre ++ ⟨DiffType.removed, r.value, none, countLines r.value⟩
              :: buildBlocks suf) ∧
    (∀ (pre : List Change) (a : Change) (suf : List Change),
        (∀ x ∈ pre ++ a :: suf, changeWF x) →
        a.added = true → (∀ p, pre.getLast? = some p → p.removed = false) →
        ∃ bpre, buildBlocks (pre ++ a :: suf)
          = bpre ++ ⟨DiffType.added, a.value, none, countLines a.value⟩
              :: buildBlocks suf) ∧
    (∀ oldText newText : String,
        List.Chain'
          (fun b1 b2 => ¬(b1.type = DiffType.removed ∧ b2.type = DiffType.added))
          (computePlanDiff oldText newText).1) ∧
    computePlanDiff "line1\nline2\n" "line1\nline2-edited\n"
      = ([⟨DiffType.unchanged, "line1\n", none, 1⟩,
          ⟨DiffType.modified, "line2-edited\n", some "line2\n", 1⟩], ⟨1, 1, 1⟩) := by
  refine ⟨buildBlocks_paired, buildBlocks_lone_removed, buildBlocks_lone_added,
    ?_, by decide⟩
  intro oldText newText
  exact buildBlocks_no_adjacent _ (diffLines_WF oldText newText)

/-- Witness for the pairing theorem: a one-removed-one-added script is
emitted as a single modified block. -/
theorem computePlanDiff_pairing_witness :
    ∃ bpre, buildBlocks ([] ++ ⟨"x\n", false, true⟩ :: ⟨"y\n", true, false⟩ :: [])
      = bpre ++ ⟨DiffType.modified, "y\n", some "x\n", countLines "y\n"⟩
          :: buildBlocks [] :=
  computePlanDiff_pairing.1 [] ⟨"x\n", false, true⟩ ⟨"y\n", true, false⟩ []
    (by decide) rfl rfl

/-! ## Version history store (plan storage module)

The store keeps one text file per version in a per-(project, slug)
history directory. The directory is modelled as an association list from
file name to file content; the fallible filesystem reads return an
`Option`. Version file names are the version number zero-padded to three
digits with the `.md` extension, and the enumeration mechanism pattern
matches the numeric file names. -/

/-- Decimal digit character with value `n`. -/
def digitChar (n : Nat) : Char := Char.ofNat (48 + n)

/-- Model of the JavaScript decimal rendering of a natural number, most
significant digit first. The first argument is recursion fuel;
`natChars` below always supplies enough. -/
def natCharsF : Nat → Nat → List Char
  | 0, _ => []
  | fuel + 1, n =>
    if n < 10 then [digitChar n]
    else natCharsF fuel (n / 10) ++ [digitChar (n % 10)]

/-- Decimal rendering of a natural number (model of `String(n)`). -/
def natChars (n : Nat) : List Char := natCharsF (n + 1) n

/-- Model of `parseInt(s, 10)` on a digit string. -/
def parseDigits (cs : List Char) : Nat :=
  cs.foldl (fun acc c => 10 * acc + (c.toNat - 48)) 0

/-- Model of `s.padStart(3, "0")`. -/
def padStart3 (s : List Char) : List Char :=
  List.replicate (3 - s.length) '0' ++ s

/-- File name of a version: the zero-padded version number with the `.md`
extension, as in the source's template string. -/
def versionFileName (n : Nat) : String :=
  String.mk (padStart3 (natChars n) ++ ['.', 'm', 'd'])

/-- Model of matching a directory entry against the version-file pattern
(one or more digits followed by `.md`) and parsing the digits. -/
def matchVersionFile (name : String) : Option Nat :=
  let cs := name.data
  let stem := cs.take (cs.length - 3)
  if cs.length ≥ 4 ∧ cs.drop (cs.length - 3) = ['.', 'm', 'd']
      ∧ stem.all Char.isDigit
  then some (parseDigits stem)
  else none

/-- A history directory: file names with their contents. -/
abbrev HistoryDir := List (String × String)

/-- Model of `readFileSync`: the content stored under a name, or `none`
where the source catches a thrown error. -/
def readFile (dir : HistoryDir) (name : String) : Option String :=
  (dir.find? (fun e => e.1 == name)).map (fun e => e.2)

/-- Model of `writeFileSync`: create the file or overwrite its content. -/
def writeFile (dir : HistoryDir) (name content : String) : HistoryDir :=
  if dir.any (fun e => e.1 == name) then
    dir.map (fun e => if e.1 == name then (e.1, content) else e)
  else dir ++ [(name, content)]

/-- Maximum-tracking step of the version scan: fold one directory entry
into the running maximum matched version number. -/
def maxStep (mx : Nat) (e : String × String) : Nat :=
  match matchVersionFile e.1 with
  | some num => if num > mx then num else mx
  | none => mx

/-- getNextVersionNumber from the storage module: one more than the
largest version number among the matching file names (1 for an empty or
unreadable directory). -/
def getNextVersionNumber (dir : HistoryDir) : Nat :=
  dir.foldl maxStep 0 + 1

/-- saveToHistory from the storage module: compute the next version
number; if a previous version exists and stores content identical to the
incoming plan, return its number with `isNew = false` and write nothing;
otherwise write the plan under the next version number. Returns the
version number, the `isNew` flag and the updated directory. -/
def saveToHistory (dir : HistoryDir) (plan : String) : (Nat × Bool) × HistoryDir :=
  let nextVersion := getNextVersionNumber dir
  if nextVersion > 1 then
    match readFile dir (versionFileName (nextVersion - 1)) with
    | some existing =>
      if existing = plan then ((nextVersion - 1, false), dir)
      else ((nextVersion, true), writeFile dir (versionFileName nextVersion) plan)
    | none => ((nextVersion, true), writeFile dir (versionFileName nextVersion) plan)
  else ((nextVersion, true), writeFile dir (versionFileName nextVersion) plan)

/-- getPlanVersion from the storage module: the stored content of a
version, or `none` when the file does not exist or cannot be read. -/
def getPlanVersion (dir : HistoryDir) (version : Nat) : Option String :=
  readFile dir (versionFileName version)

/-- Iterate saveToHistory over a list of plans, collecting the returned
(version, isNew) pairs and threading the directory. -/
def saveSeq (dir : HistoryDir) : List String → List (Nat × Bool) × HistoryDir
  | [] => ([], dir)
  | p :: ps =>
    let r := saveToHistory dir p
    let rest := saveSeq r.2 ps
    (r.1 :: rest.1, rest.2)

/-- The canonical directory holding versions `1..n` of the given plans in
order: what a fresh history looks like after saving each plan once. -/
def canonDir (plans : List String) : HistoryDir :=
  ((List.range' 1 plans.length).zip plans).map (fun pr => (versionFileName pr.1, pr.2))

/-! ### Version file names parse back to their version numbers -/

theorem digitChar_isDigit (d : Nat) (h : d < 10) : (digitChar d).isDigit = true := by
  interval_cases d <;> decide

theorem digitChar_toNat (d : Nat) (h : d < 10) : (digitChar d).toNat = 48 + d := by
  interval_cases d <;> decide

theorem natCharsF_digits (fuel : Nat) :
    ∀ n : Nat, ∀ c ∈ natCharsF fuel n, c.isDigit = true := by
  induction fuel with
  | zero => simp [natCharsF]
  | succ fuel ih =>
    intro n c hc
    simp only [natCharsF] at hc
    split at hc
    · rename_i h
      simp at hc
      subst hc
      exact digitChar_isDigit n h
    · rcases List.mem_append.mp hc with h | h
      · exact ih _ c h
      · simp at h
        subst h
        exact digitChar_isDigit _ (Nat.mod_lt _ (by omega))

theorem parseDigits_append_digit (l : List Char) (c : Char) :
    parseDigits (l ++ [c]) = 10 * parseDigits l + (c.toNat - 48) := by
  unfold parseDigits
  rw [List.foldl_append]
  rfl

theorem parseDigits_natCharsF (fuel : Nat) :
    ∀ n : Nat, n < fuel → parseDigits (natCharsF fuel n) = n := by
  induction fuel with
  | zero => omega
  | succ fuel ih =>
    intro n hn
    simp only [natCharsF]
    split
    · rename_i h10
      show parseDigits [digitChar n] = n
      unfold parseDigits
      simp only [List.foldl_cons, List.foldl_nil]
      rw [digitChar_toNat n h10]
      omega
    · rename_i h10
      push_neg at h10
      have hlt : n / 10 < fuel := by
        have := Nat.div_lt_self (show 0 < n by omega) (show 1 < 10 by omega)
        omega
      rw [parseDigits_append_digit, ih _ hlt,
        digitChar_toNat _ (Nat.mod_lt _ (by omega))]
      omega

theorem parseDigits_replicate_zero (k : Nat) (l : List Char) :
    parseDigits (List.replicate k '0' ++ l) = parseDigits l := by
  induction k with
  | zero => rfl
  | succ k ih =>
    rw [List.replicate_succ, List.cons_append]
    unfold parseDigits at ih ⊢
    simp only [List.foldl_cons]
    simpa using ih

theorem matchVersionFile_versionFileName (n : Nat) :
    matchVersionFile (versionFileName n) = some n := by
  unfold matchVersionFile versionFileName padStart3
  have hd : ∀ c ∈ List.replicate (3 - (natChars n).length) '0' ++ natChars n,
      c.isDigit = true := by
    intro c hc
    rcases List.mem_append.mp hc with h | h
    · rw [List.eq_of_mem_replicate h]; decide
    · exact natCharsF_digits _ _ c h
  set l := List.replicate (3 - (natChars n).length) '0' ++ natChars n with hl
  have hlen : (String.mk (l ++ ['.', 'm', 'd'])).data.length - 3 = l.length := by
    simp
  simp only [hlen]
  have htake : (String.mk (l ++ ['.', 'm', 'd'])).data.take l.length = l := by
    show (l ++ ['.', 'm', 'd']).take l.length = l
    exact List.take_left l _
  have hdrop : (String.mk (l ++ ['.', 'm', 'd'])).data.drop l.length = ['.', 'm', 'd'] := by
    show (l ++ ['.', 'm', 'd']).drop l.length = _
    exact List.drop_left l _
  have hl3 : 3 ≤ l.length := by
    rw [hl, List.length_append, List.length_replicate]
    omega
  rw [htake, hdrop]
  rw [if_pos ⟨by simp; omega, rfl, List.all_eq_true.mpr hd⟩]
  rw [hl, parseDigits_replicate_zero]
  exact congrArg some (parseDigits_natCharsF (n + 1) n (by omega))

theorem versionFileName_inj {i j : Nat} (h : versionFileName i = versionFileName j) :
    i = j := by
  have hi := matchVersionFile_versionFileName i
  rw [h, matchVersionFile_versionFileName j] at hi
  exact (Option.some_inj.mp hi).symm

/-! ### The canonical fresh history -/

theorem canonDir_nil : canonDir [] = [] := rfl

theorem canonDir_concat (l : List String) (c : String) :
    canonDir (l ++ [c]) = canonDir l ++ [(versionFileName (l.length + 1), c)] := by
  unfold canonDir
  rw [List.length_append, List.length_singleton]
  rw [List.range'_concat]
  rw [show 1 + 1 * l.length = l.length + 1 from by omega]
  rw [List.zip_append (by simp)]
  rw [List.map_append]
  rfl

theorem canonDir_mem (l : List String) :
    ∀ e ∈ canonDir l, ∃ i, 1 ≤ i ∧ i ≤ l.length ∧ e.1 = versionFileName i := by
  intro e he
  unfold canonDir at he
  obtain ⟨pr, hpr, rfl⟩ := List.mem_map.mp he
  have h1 : pr.1 ∈ List.range' 1 l.length := (List.of_mem_zip hpr).1
  rw [List.mem_range'] at h1
  exact ⟨pr.1, by omega, by omega, rfl⟩

theorem foldl_maxStep_canonDir (l : List String) :
    (canonDir l).foldl maxStep 0 = l.length := by
  induction l using List.reverseRecOn with
  | nil => rfl
  | append_singleton l c ih =>
    rw [canonDir_concat, List.foldl_append, ih]
    show maxStep l.length (versionFileName (l.length + 1), c) = (l ++ [c]).length
    unfold maxStep
    rw [matchVersionFile_versionFileName]
    simp

theorem getNextVersionNumber_canonDir (l : List String) :
    getNextVersionNumber (canonDir l) = l.length + 1 := by
  unfold getNextVersionNumber
  rw [foldl_maxStep_canonDir]

theorem canonDir_find?_none (l : List String) (m : Nat) (hm : l.length < m) :
    (canonDir l).find? (fun e => e.1 == versionFileName m) = none := by
  apply List.find?_eq_none.mpr
  intro e he
  obtain ⟨i, h1, h2, hname⟩ := canonDir_mem l e he
  simp only [hname]
  intro hcontra
  have := versionFileName_inj (by simpa using hcontra)
  omega

theorem canonDir_any_false (l : List String) (m : Nat) (hm : l.length < m) :
    (canonDir l).any (fun e => e.1 == versionFileName m) = false := by
  rw [List.any_eq_false]
  intro e he
  obtain ⟨i, h1, h2, hname⟩ := canonDir_mem l e he
  simp only [hname]
  intro hcontra
  have := versionFileName_inj (by simpa using hcontra)
  omega

theorem readFile_canonDir_last (l : List String) (c : String) :
    readFile (canonDir (l ++ [c])) (versionFileName (l.length + 1)) = some c := by
  unfold readFile
  rw [canonDir_concat, List.find?_append, canonDir_find?_none l _ (by omega)]
  simp

theorem saveToHistory_canonDir (l : List String) (p : String)
    (hl : ∀ h : l ≠ [], l.getLast h ≠ p) :
    saveToHistory (canonDir l) p = ((l.length + 1, true), canonDir (l ++ [p])) := by
  induction l using List.reverseRecOn with
  | nil =>
    show saveToHistory [] p = ((1, true), canonDir [p])
    rfl
  | append_singleton l c _ =>
    have hcp : c ≠ p := by
      have := hl (by simp)
      rwa [List.getLast_append] at this
    have hpos : getNextVersionNumber (canonDir (l ++ [c])) > 1 := by
      rw [getNextVersionNumber_canonDir]
      simp only [List.length_append, List.length_singleton]
      omega
    have hwrite : writeFile (canonDir (l ++ [c])) (versionFileName (l.length + 1 + 1)) p
        = canonDir (l ++ [c] ++ [p]) := by
      have hcc := canonDir_concat (l ++ [c]) p
      rw [List.length_append, List.length_singleton] at hcc
      unfold writeFile
      rw [canonDir_any_false _ _
        (by simp only [List.length_append, List.length_singleton]; omega)]
      simp only [Bool.false_eq_true, if_false]
      exact hcc.symm
    unfold saveToHistory
    rw [if_pos hpos]
    rw [getNextVersionNumber_canonDir]
    simp only [List.length_append, List.length_singleton, Nat.add_sub_cancel]
    rw [readFile_canonDir_last]
    simp [hcp, hwrite]

theorem saveSeq_canonDir : ∀ (cs l : List String),
    List.Chain' (· ≠ ·) (l ++ cs) →
    saveSeq (canonDir l) cs
      = ((List.range' (l.length + 1) cs.length).map (fun v => (v, true)),
          canonDir (l ++ cs))
  | [], l, _ => by simp [saveSeq]
  | c :: cs', l, hch => by
    have hlast : ∀ h : l ≠ [], l.getLast h ≠ c := by
      intro h
      have hc := (List.chain'_append.mp hch).2.2
      exact hc (l.getLast h) (List.getLast?_eq_getLast l h) c rfl
    have hch' : List.Chain' (· ≠ ·) ((l ++ [c]) ++ cs') := by
      rw [List.append_assoc, List.singleton_append]
      exact hch
    have ih := saveSeq_canonDir cs' (l ++ [c]) hch'
    simp only [saveSeq]
    rw [saveToHistory_canonDir l c hlast]
    simp only [ih]
    rw [List.length_append, List.length_singleton, List.append_assoc,
      List.singleton_append, List.length_cons, List.range'_succ]
    rfl

/-! ### The version-history claims -/

/-- C1: a save whose content is byte-identical to the stored content of
the current maximum version returns that version number with
`isNew = false` and leaves the directory unchanged; concretely, saving
"A" to a fresh history returns version 1 as new, saving "A" again returns
version 1 as not new without writing, and saving "B" then returns
version 2 as new. -/
theorem saveToHistory_dedup :
    (∀ (dir : HistoryDir) (plan : String) (m : Nat),
        getNextVersionNumber dir = m + 1 → 1 ≤ m →
        readFile dir (versionFileName m) = some plan →
        saveToHistory dir plan = ((m, false), dir)) ∧
    (saveToHistory [] "A" = ((1, true), [(versionFileName 1, "A")]) ∧
      saveToHistory [(versionFileName 1, "A")] "A"
        = ((1, false), [(versionFileName 1, "A")]) ∧
      saveToHistory [(versionFileName 1, "A")] "B"
        = ((2, true), [(versionFileName 1, "A"), (versionFileName 2, "B")])) := by
  constructor
  · intro dir plan m h1 hm hread
    unfold saveToHistory
    rw [h1]
    rw [if_pos (by omega)]
    have hstep : m + 1 - 1 = m := by omega
    rw [hstep, hread]
    simp
  · exact ⟨by decide, by decide, by decide⟩

/-- Witness for the dedup theorem at a concrete one-version directory. -/
theorem saveToHistory_dedup_witness :
    saveToHistory [(versionFileName 1, "A")] "A"
      = ((1, false), [(versionFileName 1, "A")]) :=
  saveToHistory_dedup.1 [(versionFileName 1, "A")] "A" 1 (by decide) (by decide)
    (by decide)

/-- C2: saving N pairwise-distinct contents into a fresh history returns
the version numbers 1..N in order, each new, and leaves the history
holding exactly versions 1..N of those contents (unique and contiguous
starting at 1). -/
theorem saveSeq_versions (cs : List String) (h : cs.Pairwise (· ≠ ·)) :
    (saveSeq ([] : HistoryDir) cs).1
        = (List.range' 1 cs.length).map (fun v => (v, true)) ∧
    (saveSeq ([] : HistoryDir) cs).2 = canonDir cs := by
  have hch : List.Chain' (· ≠ ·) (([] : List String) ++ cs) := by
    simpa using h.chain'
  have hs := saveSeq_canonDir cs [] hch
  rw [canonDir_nil] at hs
  rw [hs]
  exact ⟨rfl, rfl⟩

/-- Witness for the version-sequence theorem on two distinct contents. -/
theorem saveSeq_versions_witness :
    (saveSeq ([] : HistoryDir) ["A", "B"]).1
        = (List.range' 1 (["A", "B"] : List String).length).map (fun v => (v, true)) ∧
    (saveSeq ([] : HistoryDir) ["A", "B"]).2 = canonDir ["A", "B"] :=
  saveSeq_versions ["A", "B"] (by decide)

/-- C8: reading a version whose file is absent from the history directory
returns `none` (the embedding is total, so no exception escapes), and
reading a stored version returns its full content. -/
theorem getPlanVersion_spec :
    (∀ (dir : HistoryDir) (v : Nat),
        (∀ e ∈ dir, e.1 ≠ versionFileName v) → getPlanVersion dir v = none) ∧
    (∀ (dir : HistoryDir) (v : Nat) (content : String),
        (dir.map (fun e => e.1)).Nodup → (versionFileName v, content) ∈ dir →
        getPlanVersion dir v = some content) := by
  constructor
  · intro dir v habs
    unfold getPlanVersion readFile
    rw [List.find?_eq_none.mpr (by
      intro e he
      simpa using habs e he)]
    rfl
  · intro dir v content hnd hmem
    unfold getPlanVersion readFile
    induction dir with
    | nil => cases hmem
    | cons e dir' ih =>
      rcases List.mem_cons.mp hmem with he | he
      · subst he
        simp [List.find?_cons_of_pos]
      · have hne : e.1 ≠ versionFileName v := by
          intro hcontra
          have : versionFileName v ∈ dir'.map (fun e => e.1) :=
            List.mem_map.mpr ⟨(versionFileName v, content), he, rfl⟩
          rw [List.map_cons, hcontra] at hnd
          exact (List.nodup_cons.mp hnd).1 this
        rw [List.find?_cons_of_neg _ (by simpa using hne)]
        exact ih (by
          rw [List.map_cons] at hnd
          exact (List.nodup_cons.mp hnd).2) he

/-- Witness for the version-read theorem: absent version and stored
version on concrete directories. -/
theorem getPlanVersion_spec_witness :
    getPlanVersion [] 1 = none ∧
    getPlanVersion [(versionFileName 2, "B")] 2 = some "B" :=
  ⟨getPlanVersion_spec.1 [] 1 (by decide),
    getPlanVersion_spec.2 [(versionFileName 2, "B")] 2 "B" (by decide) (by decide)⟩

/-! ## Slug derivation (plan storage module and Pi extension server)

`sanitizeTag` is embedded from the Pi extension server, the copy the
source comments describe as duplicated from the server package (the
package's own project module is not among the sources). `generateSlug`
exists twice: the storage module puts the date before the sanitized
heading, the Pi extension puts the heading before the date. JavaScript's
current date is an explicit parameter, and lowercasing and the regex
whitespace class are modelled per character on the ASCII range. -/

/-- Model of the JavaScript whitespace class on the ASCII range. -/
def isJsSpace (c : Char) : Bool :=
  c == ' ' || c == '\t' || c == '\n' || c == '\r' || c == '\x0b' || c == '\x0c'

/-- Model of `String.prototype.trim`: whitespace stripped at both ends. -/
def trimChars (l : List Char) : List Char :=
  ((l.dropWhile isJsSpace).reverse.dropWhile isJsSpace).reverse

/-- Character class of the sanitizer's run-replacement: whitespace or
underscore. -/
def isSpaceUnderscore (c : Char) : Bool := isJsSpace c || c == '_'

/-- Replace every maximal run of whitespace and underscores by one hyphen
(the flag records whether the previous character belonged to a run). -/
def dashRunsGo : Bool → List Char → List Char
  | _, [] => []
  | inRun, c :: rest =>
    if isSpaceUnderscore c then
      if inRun then dashRunsGo true rest else '-' :: dashRunsGo true rest
    else c :: dashRunsGo false rest

/-- Replacement of whitespace-and-underscore runs by single hyphens. -/
def dashRuns (l : List Char) : List Char := dashRunsGo false l

/-- Characters kept by the sanitizer: lowercase letters, digits, hyphen. -/
def isTagChar (c : Char) : Bool :=
  (decide ('a' ≤ c) && decide (c ≤ 'z')) || c.isDigit || c == '-'

/-- Collapse every run of hyphens to a single hyphen (the flag records
whether the previous character was a hyphen). -/
def collapseGo : Bool → List Char → List Char
  | _, [] => []
  | inRun, c :: rest =>
    if c = '-' then
      if inRun then collapseGo true rest else '-' :: collapseGo true rest
    else c :: collapseGo false rest

/-- Collapse hyphen runs. -/
def collapseDashes (l : List Char) : List Char := collapseGo false l

/-- Remove one leading hyphen, when present. -/
def stripLeadDash : List Char → List Char
  | [] => []
  | c :: rest => if c = '-' then rest else c :: rest

/-- Remove one leading and one trailing hyphen (the edge-anchored hyphen
replacement of the sanitizer). -/
def stripEdgeDashes (l : List Char) : List Char :=
  ((stripLeadDash l).reverse |> stripLeadDash).reverse

/-- sanitizeTag from the Pi extension server: lowercase, trim, turn
whitespace-and-underscore runs into hyphens, drop everything outside
lowercase alphanumerics and hyphens, collapse hyphen runs, strip edge
hyphens, cap at 30 characters; `none` for an empty input or a result
shorter than two characters. -/
def sanitizeTag (name : String) : Option String :=
  if name = "" then none
  else
    let s1 := name.data.map Char.toLower
    let s2 := trimChars s1
    let s3 := dashRuns s2
    let s4 := s3.filter isTagChar
    let s5 := collapseDashes s4
    let s6 := stripEdgeDashes s5
    let s7 := s6.take 30
    if s7.length ≥ 2 then some (String.mk s7) else none

/-- Match one line against the first-heading pattern (hash, whitespace,
content): the captured group, including the backtracking artifact where a
hash followed only by two or more whitespace characters captures the run
minus its first character. -/
def headingContent : List Char → Option (List Char)
  | '#' :: rest =>
    let sp := rest.takeWhile isJsSpace
    if sp.isEmpty then none
    else
      let content := rest.dropWhile isJsSpace
      if content.isEmpty then
        if sp.length ≥ 2 then some (sp.drop 1) else none
      else some content
  | _ => none

/-- extractFirstHeading from the storage module: the trimmed captured
group of the first line matching the heading pattern. -/
def extractFirstHeading (markdown : String) : Option String :=
  ((splitNlChars markdown.data).findSome? headingContent).map
    (fun content => String.mk (trimChars content))

/-- The sanitized first heading both generateSlug variants share: the
extracted heading when it is truthy, sanitized; `none` otherwise. -/
def slugCore (plan : String) : Option String :=
  match extractFirstHeading plan with
  | some h => if h = "" then none else sanitizeTag h
  | none => none

/-- generateSlug from the storage module: date first, then the sanitized
heading; the fallback is the date followed by "plan". -/
def generateSlug (date plan : String) : String :=
  match slugCore plan with
  | some s => date ++ "-" ++ s
  | none => date ++ "-plan"

/-- generateSlug from the Pi extension server: sanitized heading first,
then the date; the fallback is "plan" followed by the date. -/
def generateSlugPi (date plan : String) : String :=
  match slugCore plan with
  | some s => s ++ "-" ++ date
  | none => "plan-" ++ date

/-! ### Shape of the sanitized slug -/

/-- Adjacent characters are never both hyphens. -/
def noDashPair (a b : Char) : Prop := ¬(a = '-' ∧ b = '-')

theorem collapseGo_mem : ∀ (b : Bool) (l : List Char), ∀ c ∈ collapseGo b l, c ∈ l := by
  intro b l
  induction l generalizing b with
  | nil => simp [collapseGo]
  | cons c rest ih =>
    intro x hx
    simp only [collapseGo] at hx
    split at hx
    · rename_i hc
      subst hc
      split at hx
      · exact List.mem_cons_of_mem _ (ih _ x hx)
      · rcases List.mem_cons.mp hx with h | h
        · subst h; simp
        · exact List.mem_cons_of_mem _ (ih _ x h)
    · rcases List.mem_cons.mp hx with h | h
      · subst h; simp
      · exact List.mem_cons_of_mem _ (ih _ x h)

theorem collapseGo_true_head :
    ∀ (l : List Char) (c : Char), (collapseGo true l).head? = some c → c ≠ '-' := by
  intro l
  induction l with
  | nil => intro c hc; cases hc
  | cons x rest ih =>
    intro c hc
    simp only [collapseGo] at hc
    split at hc
    · exact ih c hc
    · rename_i hx
      simp at hc
      subst hc
      exact hx

theorem collapseGo_chain : ∀ (b : Bool) (l : List Char),
    List.Chain' noDashPair (collapseGo b l) := by
  intro b l
  induction l generalizing b with
  | nil => simp [collapseGo]
  | cons c rest ih =>
    simp only [collapseGo]
    split
    · rename_i hc
      subst hc
      split
      · exact ih true
      · rw [List.chain'_cons']
        refine ⟨?_, ih true⟩
        intro y hy
        intro hpair
        exact collapseGo_true_head rest y hy hpair.2
    · rename_i hc
      rw [List.chain'_cons']
      refine ⟨?_, ih false⟩
      intro y _
      intro hpair
      exact hc hpair.1

theorem stripLeadDash_subset (l : List Char) : stripLeadDash l ⊆ l := by
  cases l with
  | nil => simp [stripLeadDash]
  | cons c rest =>
    simp only [stripLeadDash]
    split
    · exact List.subset_cons_self c rest
    · exact fun x hx => hx

theorem stripLeadDash_chain (l : List Char) (h : List.Chain' noDashPair l) :
    List.Chain' noDashPair (stripLeadDash l) := by
  cases l with
  | nil => simp [stripLeadDash]
  | cons c rest =>
    simp only [stripLeadDash]
    split
    · exact h.tail
    · exact h

theorem noDashPair_flip (a b : Char) (h : noDashPair a b) : noDashPair b a :=
  fun hp => h ⟨hp.2, hp.1⟩

theorem chain_reverse_noDashPair (l : List Char) (h : List.Chain' noDashPair l) :
    List.Chain' noDashPair l.reverse := by
  rw [List.chain'_reverse]
  exact h.imp (fun a b hab => noDashPair_flip a b hab)

theorem stripEdgeDashes_subset (l : List Char) : stripEdgeDashes l ⊆ l := by
  intro x hx
  unfold stripEdgeDashes at hx
  rw [List.mem_reverse] at hx
  have hx2 := stripLeadDash_subset _ hx
  rw [List.mem_reverse] at hx2
  exact stripLeadDash_subset _ hx2

theorem stripEdgeDashes_chain (l : List Char) (h : List.Chain' noDashPair l) :
    List.Chain' noDashPair (stripEdgeDashes l) := by
  unfold stripEdgeDashes
  exact chain_reverse_noDashPair _
    (stripLeadDash_chain _ (chain_reverse_noDashPair _ (stripLeadDash_chain _ h)))

theorem sanitizeTag_props (name t : String) (h : sanitizeTag name = some t) :
    (∀ c ∈ t.data, isTagChar c = true) ∧
    List.Chain' noDashPair t.data ∧ t.data.length ≤ 30 := by
  unfold sanitizeTag at h
  split at h
  · cases h
  · dsimp only [] at h
    split at h
    · rename_i hlen
      have ht : t.data
          = (stripEdgeDashes (collapseDashes
              ((dashRuns (trimChars (name.data.map Char.toLower))).filter isTagChar))).take 30 := by
        have hs := Option.some_inj.mp h
        rw [← hs]
      refine ⟨?_, ?_, ?_⟩
      · intro c hc
        rw [ht] at hc
        have hc2 := List.take_subset _ _ hc
        have hc3 := stripEdgeDashes_subset _ hc2
        have hc4 := collapseGo_mem false _ c hc3
        exact (List.mem_filter.mp hc4).2
      · rw [ht]
        exact (stripEdgeDashes_chain _ (collapseGo_chain false _)).take 30
      · rw [ht, List.length_take]
        exact min_le_left _ _
    · cases h

/-- C7: the generated slug is either the date followed by the sanitized
first heading — a string of lowercase alphanumerics and hyphens with no
adjacent hyphens, capped at 30 characters — or, when the document has no
heading or the heading sanitizes away, the generic fallback of the date
followed by "plan". -/
theorem generateSlug_shape (date plan : String) :
    (∃ h t, extractFirstHeading plan = some h ∧ sanitizeTag h = some t ∧
      generateSlug date plan = date ++ "-" ++ t ∧
      (∀ c ∈ t.data, isTagChar c = true) ∧
      List.Chain' noDashPair t.data ∧
      t.data.length ≤ 30) ∨
    (generateSlug date plan = date ++ "-plan" ∧
      (extractFirstHeading plan = none ∨
        ∃ h, extractFirstHeading plan = some h ∧ (h = "" ∨ sanitizeTag h = none))) := by
  unfold generateSlug
  cases hc : slugCore plan with
  | some t =>
    left
    unfold slugCore at hc
    cases hh : extractFirstHeading plan with
    | none => rw [hh] at hc; cases hc
    | some h =>
      rw [hh] at hc
      have hc' : (if h = "" then none else sanitizeTag h) = some t := hc
      by_cases he : h = ""
      · rw [if_pos he] at hc'; cases hc'
      · rw [if_neg he] at hc'
        obtain ⟨h1, h2, h3⟩ := sanitizeTag_props h t hc'
        exact ⟨h, t, rfl, hc', rfl, h1, h2, h3⟩
  | none =>
    right
    refine ⟨rfl, ?_⟩
    unfold slugCore at hc
    cases hh : extractFirstHeading plan with
    | none => exact Or.inl rfl
    | some h =>
      rw [hh] at hc
      have hc' : (if h = "" then none else sanitizeTag h) = none := hc
      by_cases he : h = ""
      · exact Or.inr ⟨h, rfl, Or.inl he⟩
      · rw [if_neg he] at hc'
        exact Or.inr ⟨h, rfl, Or.inr hc'⟩

/-- C9 counterexample: at the same date and for the same plan text it is
false that the storage module's generateSlug and the Pi extension's
generateSlug return the same slug — the date and the sanitized heading
are concatenated in opposite orders. -/
theorem generateSlug_ne_pi :
    generateSlug "2025-01-01" "# Hello" ≠ generateSlugPi "2025-01-01" "# Hello" := by
  decide

/-- C9 amended: the two duplicated generateSlug implementations agree on
the sanitized components — the same sanitized first heading via the same
sanitizeTag and the same fallback word — but concatenate them in opposite
orders (storage: date first; Pi extension: heading first), so the two
stacks store the same plan under different slugs. -/
theorem generateSlug_component_swap (date plan : String) :
    (∃ t, slugCore plan = some t ∧
      generateSlug date plan = date ++ "-" ++ t ∧
      generateSlugPi date plan = t ++ "-" ++ date) ∨
    (slugCore plan = none ∧
      generateSlug date plan = date ++ "-plan" ∧
      generateSlugPi date plan = "plan-" ++ date) := by
  unfold generateSlug generateSlugPi
  cases hc : slugCore plan with
  | none => exact Or.inr ⟨rfl, rfl, rfl⟩
  | some t => exact Or.inl ⟨t, rfl, rfl, rfl⟩

/-! ## Share codec

Modelled from the spec: the share codec is not among the repository
sources, so the whole pipeline is built from the spec's words — project
each annotation to a compact tagged variant carrying only the fields its
type needs, serialize the (document, annotations) payload to a structured
text (here a length-prefixed format, with its code points standing for
the byte sequence), compress with a lossless streaming compressor (here
run-length coding), and render in a URL-safe alphabet (here decimal
digits and periods). Decoding reverses the stages and any failure yields
`none` (the CorruptPayload outcome). Identifiers, timestamps and
positions are not transmitted; decoding synthesizes empty ones. -/

/-- Annotation type variants. -/
inductive AnnType where
  | deletion
  | insertion
  | replacement
  | comment
  | globalComment
deriving DecidableEq, Repr

/-- The annotation record: type, exact target text, optional note and
author, plus identifier, creation stamp and optional structural position
(block id with character offsets) that the codec does not transmit. -/
structure Ann where
  id : String
  type : AnnType
  targetText : String
  note : Option String
  author : Option String
  createdAt : Nat
  position : Option (String × Nat × Nat)
deriving DecidableEq, Repr

/-- Modelled from the spec: the compact tagged variant, one constructor
per annotation type, each carrying exactly the fields that type needs —
deletions carry no note, global comments carry no target. -/
inductive CompactAnn where
  | deletion (target : String) (author : Option String)
  | insertion (target : String) (note : String) (author : Option String)
  | replacement (target : String) (note : String) (author : Option String)
  | comment (target : String) (note : String) (author : Option String)
  | globalComment (note : String) (author : Option String)
deriving DecidableEq, Repr

/-- Projection of an annotation to its compact form. -/
def toCompact (a : Ann) : CompactAnn :=
  match a.type with
  | AnnType.deletion => CompactAnn.deletion a.targetText a.author
  | AnnType.insertion => CompactAnn.insertion a.targetText (a.note.getD "") a.author
  | AnnType.replacement => CompactAnn.replacement a.targetText (a.note.getD "") a.author
  | AnnType.comment => CompactAnn.comment a.targetText (a.note.getD "") a.author
  | AnnType.globalComment => CompactAnn.globalComment (a.note.getD "") a.author

/-- Reconstruction of an annotation from its compact form: positionless,
with a fresh empty identifier and zero creation stamp. -/
def fromCompact (c : CompactAnn) : Ann :=
  match c with
  | CompactAnn.deletion t a => ⟨"", AnnType.deletion, t, none, a, 0, none⟩
  | CompactAnn.insertion t n a => ⟨"", AnnType.insertion, t, some n, a, 0, none⟩
  | CompactAnn.replacement t n a => ⟨"", AnnType.replacement, t, some n, a, 0, none⟩
  | CompactAnn.comment t n a => ⟨"", AnnType.comment, t, some n, a, 0, none⟩
  | CompactAnn.globalComment n a => ⟨"", AnnType.globalComment, "", some n, a, 0, none⟩

/-- The compact projection the round-trip law speaks about: type, target
text, note and author. -/
def quad (a : Ann) : AnnType × String × Option String × Option String :=
  (a.type, a.targetText, a.note, a.author)

/-- Length-prefixed serialization of one string. -/
def serStr (s : String) : List Char := natChars s.data.length ++ ':' :: s.data

/-- Serialization of an optional string: a tag for absence or presence. -/
def serOpt : Option String → List Char
  | none => ['n']
  | some s => 's' :: serStr s

/-- Serialization of a compact annotation: one-character type tag, then
the fields of that variant. -/
def serAnn : CompactAnn → List Char
  | CompactAnn.deletion t a => 'd' :: (serStr t ++ serOpt a)
  | CompactAnn.insertion t n a => 'i' :: (serStr t ++ serStr n ++ serOpt a)
  | CompactAnn.replacement t n a => 'r' :: (serStr t ++ serStr n ++ serOpt a)
  | CompactAnn.comment t n a => 'c' :: (serStr t ++ serStr n ++ serOpt a)
  | CompactAnn.globalComment n a => 'g' :: (serStr n ++ serOpt a)

/-- Serialization of the whole payload: the document, the annotation
count, then the annotations. -/
def serPayload (doc : String) (anns : List CompactAnn) : List Char :=
  serStr doc ++ natChars anns.length ++ ';' :: (anns.map serAnn).flatten

/-- Parse a decimal number at the head of the input. -/
def parseNat (cs : List Char) : Option (Nat × List Char) :=
  let ds := cs.takeWhile Char.isDigit
  if ds.isEmpty then none
  else some (parseDigits ds, cs.dropWhile Char.isDigit)

/-- Consume one expected character. -/
def expectChar (c : Char) : List Char → Option (List Char)
  | [] => none
  | x :: rest => if x = c then some rest else none

/-- Parse one length-prefixed string. -/
def parseStr (cs : List Char) : Option (String × List Char) :=
  (parseNat cs).bind fun pn =>
    (expectChar ':' pn.2).bind fun r2 =>
      if pn.1 ≤ r2.length then some (String.mk (r2.take pn.1), r2.drop pn.1)
      else none

/-- Parse one optional string. -/
def parseOptStr : List Char → Option (Option String × List Char)
  | 'n' :: rest => some (none, rest)
  | 's' :: rest => (parseStr rest).map fun pr => (some pr.1, pr.2)
  | _ => none

/-- Parse one compact annotation. -/
def parseAnn : List Char → Option (CompactAnn × List Char)
  | 'd' :: rest =>
    (parseStr rest).bind fun pt =>
      (parseOptStr pt.2).map fun pa => (CompactAnn.deletion pt.1 pa.1, pa.2)
  | 'i' :: rest =>
    (parseStr rest).bind fun pt =>
      (parseStr pt.2).bind fun pn =>
        (parseOptStr pn.2).map fun pa => (CompactAnn.insertion pt.1 pn.1 pa.1, pa.2)
  | 'r' :: rest =>
    (parseStr rest).bind fun pt =>
      (parseStr pt.2).bind fun pn =>
        (parseOptStr pn.2).map fun pa => (CompactAnn.replacement pt.1 pn.1 pa.1, pa.2)
  | 'c' :: rest =>
    (parseStr rest).bind fun pt =>
      (parseStr pt.2).bind fun pn =>
        (parseOptStr pn.2).map fun pa => (CompactAnn.comment pt.1 pn.1 pa.1, pa.2)
  | 'g' :: rest =>
    (parseStr rest).bind fun pn =>
      (parseOptStr pn.2).map fun pa => (CompactAnn.globalComment pn.1 pa.1, pa.2)
  | _ => none

/-- Parse a given number of compact annotations. -/
def parseAnns : Nat → List Char → Option (List CompactAnn × List Char)
  | 0, cs => some ([], cs)
  | k + 1, cs =>
    (parseAnn cs).bind fun pr =>
      (parseAnns k pr.2).map fun qs => (pr.1 :: qs.1, qs.2)

/-- Parse a whole payload; trailing garbage is a failure. -/
def parsePayload (cs : List Char) : Option (String × List CompactAnn) :=
  (parseStr cs).bind fun pd =>
    (parseNat pd.2).bind fun pk =>
      (expectChar ';' pk.2).bind fun r3 =>
        (parseAnns pk.1 r3).bind fun pa =>
          if pa.2.isEmpty then some (pd.1, pa.1) else none

/-- Modelled from the spec: a lossless streaming run-length compressor
over the byte sequence; the first argument is the current byte, the
second the length of its run so far. -/
def rleGo (b k : Nat) : List Nat → List Nat
  | [] => [k, b]
  | c :: rest => if c = b then rleGo b (k + 1) rest else k :: b :: rleGo c 1 rest

/-- Run-length compression: alternating run lengths and byte values. -/
def rleEncode : List Nat → List Nat
  | [] => []
  | b :: rest => rleGo b 1 rest

/-- Run-length decompression. -/
def rleDecode : List Nat → List Nat
  | k :: b :: rest => List.replicate k b ++ rleDecode rest
  | _ => []

/-- URL-safe rendering of the compressed numbers: decimal digits with a
period after each number. -/
def numTokens (l : List Nat) : List Char :=
  (l.map (fun n => natChars n ++ ['.'])).flatten

/-- Parse the URL-safe rendering back into numbers; the first argument is
recursion fuel (the input length suffices). -/
def decodeNumsGo : Nat → List Char → Option (List Nat)
  | 0, cs => if cs.isEmpty then some [] else none
  | fuel + 1, cs =>
    if cs.isEmpty then some []
    else
      (parseNat cs).bind fun pn =>
        (expectChar '.' pn.2).bind fun r2 =>
          (decodeNumsGo fuel r2).map fun ns => pn.1 :: ns

/-- encode of the Share Codec: project the annotations, serialize the
payload, compress the bytes, render URL-safe. -/
def encodeShare (document : String) (anns : List Ann) : String :=
  String.mk (numTokens (rleEncode
    ((serPayload document (anns.map toCompact)).map Char.toNat)))

/-- decode of the Share Codec: reverse every stage; any failure yields
`none`. -/
def decodeShare (token : String) : Option (String × List Ann) :=
  (decodeNumsGo token.data.length token.data).bind fun nums =>
    (parsePayload ((rleDecode nums).map Char.ofNat)).bind fun pd =>
      some (pd.1, pd.2.map fromCompact)

/-- The §3 shape invariants of an annotation: deletions carry no note;
insertions, replacements and comments carry a note; global comments carry
a note and no target text. -/
def annWF (a : Ann) : Prop :=
  (a.type = AnnType.deletion → a.note = none) ∧
  ((a.type = AnnType.insertion ∨ a.type = AnnType.replacement
      ∨ a.type = AnnType.comment) → a.note.isSome = true) ∧
  (a.type = AnnType.globalComment → a.targetText = "" ∧ a.note.isSome = true)

instance annWF_dec (a : Ann) : Decidable (annWF a) := by
  unfold annWF
  infer_instance

/-! ### The codec stages invert each other -/

theorem strData_mk (l : List Char) : (String.mk l).data = l := rfl

theorem natChars_ne_nil (n : Nat) : natChars n ≠ [] := by
  unfold natChars
  simp only [natCharsF]
  split <;> simp

theorem natChars_isEmpty (n : Nat) : (natChars n).isEmpty = false := by
  cases hn : natChars n with
  | nil => exact absurd hn (natChars_ne_nil n)
  | cons a l => rfl

theorem parseDigits_natChars (n : Nat) : parseDigits (natChars n) = n :=
  parseDigits_natCharsF (n + 1) n (Nat.lt_succ_self n)

theorem splitDigits (l r : List Char) (hl : ∀ c ∈ l, c.isDigit = true)
    (hr : ∀ c, r.head? = some c → c.isDigit = false) :
    (l ++ r).takeWhile Char.isDigit = l ∧ (l ++ r).dropWhile Char.isDigit = r := by
  induction l with
  | nil =>
    simp only [List.nil_append]
    cases r with
    | nil => exact ⟨rfl, rfl⟩
    | cons c rest =>
      have hc := hr c rfl
      rw [List.takeWhile_cons, List.dropWhile_cons, hc]
      exact ⟨rfl, rfl⟩
  | cons c l' ih =>
    have hc := hl c (by simp)
    have ih' := ih (fun x hx => hl x (by simp [hx]))
    rw [List.cons_append, List.takeWhile_cons, List.dropWhile_cons, hc]
    simp only [if_true]
    exact ⟨by rw [ih'.1], by rw [ih'.2]⟩

theorem parseNat_ser (n : Nat) (c : Char) (r : List Char) (hc : c.isDigit = false) :
    parseNat (natChars n ++ c :: r) = some (n, c :: r) := by
  obtain ⟨ht, hd⟩ := splitDigits (natChars n) (c :: r) (natCharsF_digits _ _)
    (by
      intro x hx
      simp only [List.head?_cons, Option.some_inj] at hx
      exact hx ▸ hc)
  unfold parseNat
  simp only [ht, hd, natChars_isEmpty, Bool.false_eq_true, if_false,
    parseDigits_natChars]

theorem parseStr_ser (s : String) (rest : List Char) :
    parseStr (serStr s ++ rest) = some (s, rest) := by
  unfold serStr
  rw [List.append_assoc, List.cons_append]
  unfold parseStr
  rw [parseNat_ser _ ':' _ (by decide)]
  have he : expectChar ':' (':' :: (s.data ++ rest)) = some (s.data ++ rest) := by
    simp [expectChar]
  simp only [Option.some_bind, he]
  rw [if_pos (by simp)]
  rw [List.take_left, List.drop_left]

theorem parseOptStr_ser (o : Option String) (rest : List Char) :
    parseOptStr (serOpt o ++ rest) = some (o, rest) := by
  cases o with
  | none => rfl
  | some s =>
    show parseOptStr ('s' :: (serStr s ++ rest)) = _
    simp [parseOptStr, parseStr_ser]

theorem parseAnn_ser (c : CompactAnn) (rest : List Char) :
    parseAnn (serAnn c ++ rest) = some (c, rest) := by
  cases c with
  | deletion t a =>
    show parseAnn ('d' :: ((serStr t ++ serOpt a) ++ rest)) = _
    simp [List.append_assoc, parseAnn, parseStr_ser, parseOptStr_ser]
  | insertion t n a =>
    show parseAnn ('i' :: ((serStr t ++ serStr n ++ serOpt a) ++ rest)) = _
    simp [List.append_assoc, parseAnn, parseStr_ser, parseOptStr_ser]
  | replacement t n a =>
    show parseAnn ('r' :: ((serStr t ++ serStr n ++ serOpt a) ++ rest)) = _
    simp [List.append_assoc, parseAnn, parseStr_ser, parseOptStr_ser]
  | comment t n a =>
    show parseAnn ('c' :: ((serStr t ++ serStr n ++ serOpt a) ++ rest)) = _
    simp [List.append_assoc, parseAnn, parseStr_ser, parseOptStr_ser]
  | globalComment n a =>
    show parseAnn ('g' :: ((serStr n ++ serOpt a) ++ rest)) = _
    simp [List.append_assoc, parseAnn, parseStr_ser, parseOptStr_ser]

theorem parseAnns_ser (anns : List CompactAnn) (rest : List Char) :
    parseAnns anns.length ((anns.map serAnn).flatten ++ rest) = some (anns, rest) := by
  induction anns with
  | nil => rfl
  | cons c cs ih =>
    show parseAnns (cs.length + 1) ((serAnn c ++ (cs.map serAnn).flatten) ++ rest) = _
    rw [List.append_assoc]
    simp [parseAnns, parseAnn_ser, ih]

theorem parsePayload_ser (doc : String) (anns : List CompactAnn) :
    parsePayload (serPayload doc anns) = some (doc, anns) := by
  have hanns := parseAnns_ser anns []
  rw [List.append_nil] at hanns
  unfold serPayload parsePayload
  rw [List.append_assoc, parseStr_ser]
  simp only [Option.some_bind]
  rw [parseNat_ser _ ';' _ (by decide)]
  simp only [Option.some_bind]
  have he : expectChar ';' (';' :: (anns.map serAnn).flatten)
      = some ((anns.map serAnn).flatten) := by simp [expectChar]
  simp [he, hanns]

theorem rleDecode_rleGo : ∀ (l : List Nat) (b k : Nat),
    rleDecode (rleGo b k l) = List.replicate k b ++ l := by
  intro l
  induction l with
  | nil =>
    intro b k
    simp [rleGo, rleDecode]
  | cons c rest ih =>
    intro b k
    simp only [rleGo]
    split
    · rename_i hcb
      rw [ih b (k + 1), hcb, List.replicate_succ', List.append_assoc,
        List.singleton_append]
    · simp [rleDecode, ih]

theorem rleDecode_rleEncode (l : List Nat) : rleDecode (rleEncode l) = l := by
  cases l with
  | nil => rfl
  | cons b rest => simp [rleEncode, rleDecode_rleGo]

theorem decodeNumsGo_numTokens : ∀ (l : List Nat) (fuel : Nat),
    (numTokens l).length ≤ fuel →
    decodeNumsGo fuel (numTokens l) = some l := by
  intro l
  induction l with
  | nil =>
    intro fuel _
    cases fuel <;> rfl
  | cons n l' ih =>
    intro fuel hf
    have hlen : 1 ≤ (natChars n).length :=
      List.length_pos.mpr (natChars_ne_nil n)
    have hshape : numTokens (n :: l') = natChars n ++ '.' :: numTokens l' := by
      show (natChars n ++ ['.']) ++ numTokens l' = _
      rw [List.append_assoc, List.singleton_append]
    rw [hshape] at hf ⊢
    cases fuel with
    | zero =>
      rw [List.length_append, List.length_cons] at hf
      omega
    | succ fuel =>
      have hne : (natChars n ++ '.' :: numTokens l').isEmpty = false := by
        cases hn : natChars n with
        | nil => exact absurd hn (natChars_ne_nil n)
        | cons a rest => rfl
      simp only [decodeNumsGo, hne, Bool.false_eq_true, if_false]
      rw [parseNat_ser _ '.' _ (by decide)]
      have he : expectChar '.' ('.' :: numTokens l') = some (numTokens l') := by
        simp [expectChar]
      simp only [Option.some_bind, he]
      rw [List.length_append, List.length_cons] at hf
      rw [ih fuel (by omega)]
      rfl

theorem charCodes_roundtrip (l : List Char) :
    (l.map Char.toNat).map Char.ofNat = l := by
  induction l with
  | nil => rfl
  | cons c rest ih => simp [ih, Char.ofNat_toNat]

theorem decodeShare_encodeShare_core (d : String) (anns : List Ann) :
    decodeShare (encodeShare d anns)
      = some (d, (anns.map toCompact).map fromCompact) := by
  unfold encodeShare decodeShare
  simp only [strData_mk]
  rw [decodeNumsGo_numTokens _ _ (le_refl _)]
  simp only [Option.some_bind]
  rw [rleDecode_rleEncode, charCodes_roundtrip, parsePayload_ser]
  rfl

theorem quad_roundtrip (a : Ann) (h : annWF a) :
    quad (fromCompact (toCompact a)) = quad a := by
  obtain ⟨h1, h2, h3⟩ := h
  unfold toCompact
  cases ht : a.type with
  | deletion => simp [fromCompact, quad, ht, h1 ht]
  | insertion =>
    obtain ⟨n, hn⟩ := Option.isSome_iff_exists.mp (h2 (Or.inl ht))
    simp [fromCompact, quad, ht, hn]
  | replacement =>
    obtain ⟨n, hn⟩ := Option.isSome_iff_exists.mp (h2 (Or.inr (Or.inl ht)))
    simp [fromCompact, quad, ht, hn]
  | comment =>
    obtain ⟨n, hn⟩ := Option.isSome_iff_exists.mp (h2 (Or.inr (Or.inr ht)))
    simp [fromCompact, quad, ht, hn]
  | globalComment =>
    obtain ⟨htt, hns⟩ := h3 ht
    obtain ⟨n, hn⟩ := Option.isSome_iff_exists.mp hns
    simp [fromCompact, quad, ht, htt, hn]

/-- C6 counterexample: a deletion annotation carries a note (allowed by
the data model), but the compact form of a deletion carries no note, so
the decoded annotation has no note and the (type, targetText, note,
author) tuples differ — the round-trip law does not hold for every
annotation list. -/
theorem decodeShare_drops_deletion_note :
    decodeShare (encodeShare "doc"
        [⟨"i", AnnType.deletion, "x", some "why", none, 0, none⟩])
      = some ("doc", [⟨"", AnnType.deletion, "x", none, none, 0, none⟩]) ∧
    quad ⟨"", AnnType.deletion, "x", none, none, 0, none⟩
      ≠ quad ⟨"i", AnnType.deletion, "x", some "why", none, 0, none⟩ :=
  ⟨by decide, by decide⟩

/-- C6 amended: for every document and annotation list satisfying the
data model's shape invariants (deletions carry no note; insertions,
replacements and comments carry one; global comments carry a note and no
target), decoding the encoded payload succeeds and reconstructs the same
document text and the same (type, targetText, note, author) tuples,
whatever position values the original annotations carried. -/
theorem decodeShare_encodeShare (d : String) (anns : List Ann)
    (h : ∀ a ∈ anns, annWF a) :
    ∃ res, decodeShare (encodeShare d anns) = some res ∧
      res.1 = d ∧ res.2.map quad = anns.map quad := by
  refine ⟨(d, (anns.map toCompact).map fromCompact),
    decodeShare_encodeShare_core d anns, rfl, ?_⟩
  rw [List.map_map, List.map_map]
  exact List.map_congr_left (fun a ha => quad_roundtrip a (h a ha))

/-- Witness for the round-trip theorem: one comment annotation carrying a
position round-trips to the same compact tuple. -/
theorem decodeShare_encodeShare_witness :
    ∃ res, decodeShare (encodeShare "hello"
        [⟨"a1", AnnType.comment, "tgt", some "note", some "me", 7,
          some ("block-3", 4, 9)⟩])
      = some res ∧ res.1 = "hello" ∧
      res.2.map quad
        = [(⟨"a1", AnnType.comment, "tgt", some "note", some "me", 7,
            some ("block-3", 4, 9)⟩ : Ann)].map quad :=
  decodeShare_encodeShare "hello"
    [⟨"a1", AnnType.comment, "tgt", some "note", some "me", 7,
      some ("block-3", 4, 9)⟩] (by decide)

end Plannotator
